import Mathlib

/-!
Verification of the event-driven commit pipeline of the mailroom repository.

The only handler source file present is `handlers/contact_name_changed.go`;
its definitions (`CommitContactNameChanges.Apply`, `applyContactNameChanged`,
`nameUpdate`, `updateContactNameSQL`) are embedded directly from that source.
The `models` package (Session, its pre-commit queue, the batch committer and
`BulkSQL`) is not under `src/`, only its callers are; those parts are
modelled from the spec and are marked as such in their doc comments.

Go panics (index out of range, failed interface type assertion) are made
explicit as the error channel of `Except GoPanic`; a Go `error` return value
is modelled separately so that "panics" and "returns an error" stay distinct.
-/

/-- Payload of a `ContactNameChanged` event, embedded from
`events.ContactNameChangedEvent`; the handler reads only its `Name` field. -/
structure ContactNameChangedEvent where
  Name : String
deriving DecidableEq, Repr

/-- Dynamic type of the opaque `interface\x7b\x7d` data queued on a session.
`contactNameChanged` is the one payload kind the name-change handler asserts
for; `otherEvent` stands for any other dynamic type. -/
inductive EventData where
  | contactNameChanged (ev : ContactNameChangedEvent)
  | otherEvent (tag : String)
deriving DecidableEq, Repr

/-- A Go runtime panic, as raised by the two unchecked operations in the
handler file: slice indexing and interface type assertion. -/
inductive GoPanic where
  | indexOutOfRange
  | interfaceConversion
deriving DecidableEq, Repr

/-- Hook identity. In the source a hook is a package-level singleton pointer
(`commitContactNameChanges = &CommitContactNameChanges\x7b\x7d`) used as a map
key by object identity; `otherHook n` stands for any distinct other hook. -/
inductive Hook where
  | commitContactNameChanges
  | otherHook (n : Nat)
deriving DecidableEq, Repr

/-- Modelled from the spec: `models.Session` (not under `src/`). It holds
identity (`ID`, `ContactID`, `ContactUUID`, the fields the handler file
reads) and the per-session pre-commit queue: a mapping from hook to the
ordered sequence of opaque data, kept as an association list. -/
structure Session where
  ID : Int
  ContactID : Int
  ContactUUID : String
  preCommit : List (Hook × List EventData)
deriving DecidableEq, Repr

/-- Ordered sequence queued under hook `h`, `[]` when the key is absent. -/
def lookupQueue (h : Hook) : List (Hook × List EventData) → List EventData
  | [] => []
  | (h2, ds) :: rest => if h2 = h then ds else lookupQueue h rest

/-- Whether the queue has an entry keyed by `h`. -/
def hasHook (h : Hook) : List (Hook × List EventData) → Bool
  | [] => false
  | (h2, _) :: rest => h2 == h || hasHook h rest

/-- Append `d` to the sequence keyed by `h`, creating the entry on first
use (helper for `Session.AddPreCommitEvent`). -/
def insertAppend (h : Hook) (d : EventData) : List (Hook × List EventData) → List (Hook × List EventData)
  | [] => [(h, [d])]
  | (h2, ds) :: rest =>
    if h2 = h then (h2, ds ++ [d]) :: rest else (h2, ds) :: insertAppend h d rest

/-- Modelled from the spec: `models.Session.AddPreCommitEvent` (not under
`src/`) appends `data` to the ordered sequence keyed by `hook` for this
session, creating the sequence on first use. -/
def Session.AddPreCommitEvent (s : Session) (h : Hook) (d : EventData) : Session :=
  { s with preCommit := insertAppend h d s.preCommit }

/-- Submit a list of `(hook, data)` pre-commit events to a session in order. -/
def queueAll (s : Session) (subs : List (Hook × EventData)) : Session :=
  subs.foldl (fun s p => s.AddPreCommitEvent p.1 p.2) s

/-- Embedded from the source: `nameUpdate`, the struct used for the bulk
update (`ContactID int64`, `Name string`). -/
structure nameUpdate where
  ContactID : Int
  Name : String
deriving DecidableEq, Repr

/-- Embedded from the source: the SQL text `updateContactNameSQL`. -/
def updateContactNameSQL : String :=
  "UPDATE contacts_contact c SET name = r.name, modified_on = NOW() FROM (VALUES(:id, :name)) AS r(id, name) WHERE c.id = r.id::int"

/-- One call to `models.BulkSQL`: its label, SQL text and the bound rows. -/
structure BulkSQLCall where
  label : String
  sql : String
  values : List nameUpdate
deriving DecidableEq, Repr

/-- Embedded from the source, line 29: `e[len(e)-1].(*events.ContactNameChangedEvent)`.
Indexing an empty slice panics with index out of range; a last element of
another dynamic type panics with interface conversion. -/
def lastEventAssertion (e : List EventData) : Except GoPanic ContactNameChangedEvent :=
  match e.getLast? with
    | none => .error .indexOutOfRange
    | some (.contactNameChanged ev) => .ok ev
    | some (.otherEvent _) => .error .interfaceConversion

/-- Embedded from the source, lines 26-31: the loop of
`CommitContactNameChanges.Apply` that builds one `nameUpdate` per session
from the last element of that session's event slice. -/
def buildNameUpdates : List (Session × List EventData) → Except GoPanic (List nameUpdate)
  | [] => .ok []
  | (s, e) :: rest =>
    match lastEventAssertion e with
    | .error p => .error p
    | .ok ev =>
      match buildNameUpdates rest with
      | .error p => .error p
      | .ok us => .ok (⟨s.ContactID, ev.Name⟩ :: us)

/-- Embedded from the source, lines 24-35: `CommitContactNameChanges.Apply`
builds the update rows and then issues exactly one `BulkSQL` call with
`updateContactNameSQL`. The sessions map is embedded as a list of pairs in
one iteration order. The result lists the `BulkSQL` calls issued. -/
def CommitContactNameChanges.Apply (sessions : List (Session × List EventData)) :
    Except GoPanic (List BulkSQLCall) :=
  match buildNameUpdates sessions with
  | .error p => .error p
  | .ok updates => .ok [⟨"updating contact name", updateContactNameSQL, updates⟩]

/-- Embedded from the source, lines 38-48: `applyContactNameChanged` asserts
the event's dynamic type, logs, queues the event under the
`commitContactNameChanges` hook and returns `nil`. The transaction and the
cache pool are embedded as operation logs so that "performs no operation on
them" is expressible; the returned `Option String` is the Go `error` value. -/
def applyContactNameChanged (tx : List String) (rp : List String) (session : Session)
    (e : EventData) : Except GoPanic (List String × List String × Session × Option String) :=
  match e with
  | .contactNameChanged ev =>
      .ok (tx, rp,
        session.AddPreCommitEvent Hook.commitContactNameChanges (.contactNameChanged ev),
        none)
  | .otherEvent _ => .error .interfaceConversion

/-- Distinct hooks appearing in the sessions' pre-commit queues, with
duplicates removed (helper for the spec-modelled grouping). -/
def hookKeysRaw : List Session → List Hook
  | [] => []
  | s :: rest => s.preCommit.map Prod.fst ++ hookKeysRaw rest

/-- Modelled from the spec: the per-hook group the batch committer hands to
one hook: every session of the batch that queued events for `h`, in batch
order, each with its full ordered sequence. -/
def groupFor : List Session → Hook → List (Session × List EventData)
  | [], _ => []
  | s :: rest, h =>
    if hasHook h s.preCommit then (s, lookupQueue h s.preCommit) :: groupFor rest h
    else groupFor rest h

/-- Modelled from the spec: the batch committer's grouping step (not under
`src/`) — invert every session's pre-commit mapping into one global mapping
from hook to (session to ordered data); each distinct hook appears once. -/
def groupByHook (sessions : List Session) : List (Hook × List (Session × List EventData)) :=
  (hookKeysRaw sessions).dedup.map (fun h => (h, groupFor sessions h))

/-- Modelled from the spec: the committer's loop over the grouping, all
inside one transaction: call each hook's `Apply` in turn on the pending
transaction state, stopping at the first error. -/
def applyHooks {σ : Type} (apply : Hook → List (Session × List EventData) → σ → Except String σ) :
    List (Hook × List (Session × List EventData)) → σ → Except String σ
  | [], db => .ok db
  | (h, g) :: rest, db =>
    match apply h g db with
    | .error e => .error e
    | .ok db2 => applyHooks apply rest db2

/-- Modelled from the spec: `ProcessBatch` (not under `src/`) — group the
sessions' pre-commit queues by hook, run every hook's bulk operation inside
one transaction, commit on success and roll back on error. The returned
state is the observable one: the transaction result when committed, the
untouched input state when rolled back (paired with the error). -/
def ProcessBatch {σ : Type} (apply : Hook → List (Session × List EventData) → σ → Except String σ)
    (sessions : List Session) (db : σ) : σ × Option String :=
  match applyHooks apply (groupByHook sessions) db with
  | .ok db2 => (db2, none)
  | .error e => (db, some e)

/-- One row of the `contacts_contact` table; `other_cols` stands for every
column other than `name` and `modified_on`. -/
structure ContactRow where
  id : Int
  name : String
  modified_on : Nat
  other_cols : String
deriving DecidableEq, Repr

/-- Effect of `updateContactNameSQL` on a single row: a row whose `id`
matches a bound `(:id, :name)` pair gets that pair's name and
`modified_on = NOW()`; any other row is left as is. -/
def applyNameUpdateRow (updates : List nameUpdate) (now : Nat) (c : ContactRow) : ContactRow :=
  match updates.find? (fun r => r.ContactID == c.id) with
  | some r => { c with name := r.Name, modified_on := now }
  | none => c

/-- Relational semantics of the source's `updateContactNameSQL` statement
(`UPDATE contacts_contact c SET name = r.name, modified_on = NOW() FROM
(VALUES...) r WHERE c.id = r.id`): row-wise update of the table, `now`
being the database's `NOW()`. -/
def runUpdateContactNameSQL (updates : List nameUpdate) (now : Nat)
    (table : List ContactRow) : List ContactRow :=
  table.map (applyNameUpdateRow updates now)

/-- Whether a datum has the dynamic type `*events.ContactNameChangedEvent`
that the handler's two type assertions expect. -/
def isNameChangeDatum : EventData → Bool
  | .contactNameChanged _ => true
  | .otherEvent _ => false

/-- Whether the last element of a sequence exists and is a name-change
datum, i.e. whether line 29 of the source executes without panicking. -/
def lastIsNameChange (e : List EventData) : Bool :=
  match e.getLast? with
  | some d => isNameChangeDatum d
  | none => false

/-- The `Name` of the last element of a sequence of name-change data
(specification-side reading of the last-write-wins reduction). -/
def lastName (e : List EventData) : String :=
  match e.getLast? with
  | some (.contactNameChanged ev) => ev.Name
  | _ => ""

/-- Whether the last element, if any, has the expected dynamic type — true
for the empty sequence, where indexing panics before the assertion runs. -/
def lastTypedOK (e : List EventData) : Bool :=
  match e.getLast? with
  | some (.otherEvent _) => false
  | _ => true

/-- Whether a Go call returned normally rather than panicking. -/
def exOk {α : Type} : Except GoPanic α → Bool
  | .ok _ => true
  | .error _ => false

/-- Row-level frame specification for `updateContactNameSQL`: a row with no
matching update pair is unchanged; every row keeps its `id` and its other
columns; a row matched by a pair gets the pair's name and `modified_on`
equal to the database's current time. -/
def rowSpec (updates : List nameUpdate) (now : Nat) (c c2 : ContactRow) : Prop :=
  ((∀ r ∈ updates, r.ContactID ≠ c.id) → c2 = c) ∧
  c2.id = c.id ∧ c2.other_cols = c.other_cols ∧
  (∀ r, updates.find? (fun u => u.ContactID == c.id) = some r →
      c2.name = r.Name ∧ c2.modified_on = now)

/-! ### Lemmas about the pre-commit queue -/

theorem lookupQueue_insertAppend (h h2 : Hook) (d : EventData)
    (q : List (Hook × List EventData)) :
    lookupQueue h (insertAppend h2 d q) =
      if h2 = h then lookupQueue h q ++ [d] else lookupQueue h q := by
  induction q with
  | nil =>
    by_cases hh : h2 = h <;> simp [insertAppend, lookupQueue, hh]
  | cons p rest ih =>
    obtain ⟨h3, ds⟩ := p
    by_cases h32 : h3 = h2
    · subst h32
      by_cases h3h : h3 = h <;> simp [insertAppend, lookupQueue, h3h]
    · by_cases h3h : h3 = h
      · have hne2 : ¬ h2 = h := fun hc => h32 (h3h.trans hc.symm)
        have hne3 : ¬ h = h2 := fun hc => hne2 hc.symm
        simp [insertAppend, lookupQueue, h32, h3h, hne2, hne3]
      · simp [insertAppend, lookupQueue, h32, h3h, ih]

theorem lookupQueue_queueAll (s : Session) (subs : List (Hook × EventData)) (h : Hook) :
    lookupQueue h (queueAll s subs).preCommit =
      lookupQueue h s.preCommit ++ (subs.filter (fun p => p.1 == h)).map Prod.snd := by
  induction subs generalizing s with
  | nil => simp [queueAll]
  | cons p rest ih =>
    obtain ⟨h2, d⟩ := p
    have hq : queueAll s ((h2, d) :: rest) = queueAll (s.AddPreCommitEvent h2 d) rest := rfl
    rw [hq, ih]
    by_cases hh : h2 = h
    · simp [Session.AddPreCommitEvent, lookupQueue_insertAppend, hh]
    · simp [Session.AddPreCommitEvent, lookupQueue_insertAppend, hh]

/-! ### Lemmas about the update-building loop of the name-change hook -/

theorem lastEventAssertion_ok (e : List EventData) (hw : lastIsNameChange e = true) :
    lastEventAssertion e = .ok ⟨lastName e⟩ := by
  unfold lastIsNameChange at hw
  unfold lastEventAssertion lastName
  cases he : e.getLast? with
  | none => rw [he] at hw; simp at hw
  | some x =>
    rw [he] at hw
    cases x with
    | contactNameChanged ev => simp [he]
    | otherEvent t => simp [isNameChangeDatum] at hw

theorem buildNameUpdates_ok (sessions : List (Session × List EventData))
    (hw : sessions.all (fun p => lastIsNameChange p.2) = true) :
    buildNameUpdates sessions =
      .ok (sessions.map (fun p => ⟨p.1.ContactID, lastName p.2⟩)) := by
  induction sessions with
  | nil => rfl
  | cons p rest ih =>
    obtain ⟨s, e⟩ := p
    simp only [List.all_cons, Bool.and_eq_true] at hw
    simp [buildNameUpdates, lastEventAssertion_ok e hw.1, ih hw.2]

theorem apply_eq_error_iff (sessions : List (Session × List EventData)) (p : GoPanic) :
    CommitContactNameChanges.Apply sessions = .error p ↔
      buildNameUpdates sessions = .error p := by
  unfold CommitContactNameChanges.Apply
  cases hb : buildNameUpdates sessions <;> simp

theorem exOk_buildNameUpdates (sessions : List (Session × List EventData)) :
    exOk (buildNameUpdates sessions) = sessions.all (fun p => lastIsNameChange p.2) := by
  induction sessions with
  | nil => rfl
  | cons p rest ih =>
    obtain ⟨s, e⟩ := p
    rw [List.all_cons]
    cases he : e.getLast? with
    | none =>
      simp [buildNameUpdates, lastEventAssertion, lastIsNameChange, he, exOk]
    | some x =>
      cases x with
      | contactNameChanged ev =>
        have ha : lastEventAssertion e = .ok ev := by simp [lastEventAssertion, he]
        have hl : lastIsNameChange e = true := by
          simp [lastIsNameChange, he, isNameChangeDatum]
        rw [hl, Bool.true_and, ← ih]
        cases hb : buildNameUpdates rest <;> simp [buildNameUpdates, ha, hb, exOk]
      | otherEvent t =>
        have ha : lastEventAssertion e = .error .interfaceConversion := by
          simp [lastEventAssertion, he]
        have hl : lastIsNameChange e = false := by
          simp [lastIsNameChange, he, isNameChangeDatum]
        simp [buildNameUpdates, ha, hl, exOk]

theorem buildNameUpdates_no_index_panic (sessions : List (Session × List EventData))
    (hne : ∀ p ∈ sessions, p.2 ≠ []) :
    buildNameUpdates sessions ≠ .error GoPanic.indexOutOfRange := by
  induction sessions with
  | nil => simp [buildNameUpdates]
  | cons p rest ih =>
    obtain ⟨s, e⟩ := p
    have he : e ≠ [] := hne (s, e) (List.mem_cons_self _ _)
    have ihr := ih (fun q hq => hne q (List.mem_cons_of_mem _ hq))
    cases hg : e.getLast? with
    | none => exact absurd (List.getLast?_eq_none_iff.mp hg) he
    | some x =>
      cases x with
      | contactNameChanged ev =>
        have ha : lastEventAssertion e = .ok ev := by simp [lastEventAssertion, hg]
        cases hb : buildNameUpdates rest with
        | error pb =>
          have hpb : pb ≠ GoPanic.indexOutOfRange := fun hc => ihr (hc ▸ hb)
          simp [buildNameUpdates, ha, hb, hpb]
        | ok us => simp [buildNameUpdates, ha, hb]
      | otherEvent t =>
        have ha : lastEventAssertion e = .error .interfaceConversion := by
          simp [lastEventAssertion, hg]
        simp [buildNameUpdates, ha]

theorem buildNameUpdates_index_panic (sessions : List (Session × List EventData))
    (ht : sessions.all (fun p => lastTypedOK p.2) = true)
    (s : Session) (hmem : (s, ([] : List EventData)) ∈ sessions) :
    buildNameUpdates sessions = .error GoPanic.indexOutOfRange := by
  induction sessions with
  | nil => cases hmem
  | cons p rest ih =>
    obtain ⟨s2, e⟩ := p
    simp only [List.all_cons, Bool.and_eq_true] at ht
    by_cases hee : e = []
    · subst hee
      simp [buildNameUpdates, lastEventAssertion]
    · have hmem2 : (s, ([] : List EventData)) ∈ rest := by
        rcases List.mem_cons.mp hmem with hh | hh
        · exact absurd (congrArg Prod.snd hh).symm hee
        · exact hh
      cases hg : e.getLast? with
      | none => exact absurd (List.getLast?_eq_none_iff.mp hg) hee
      | some x =>
        cases x with
        | contactNameChanged ev =>
          have ha : lastEventAssertion e = .ok ev := by simp [lastEventAssertion, hg]
          simp [buildNameUpdates, ha, ih ht.2 hmem2]
        | otherEvent t =>
          simp [lastTypedOK, hg] at ht

/-! ### Lemmas about the spec-modelled grouping -/

theorem hasHook_iff (h : Hook) (q : List (Hook × List EventData)) :
    hasHook h q = true ↔ ∃ p ∈ q, p.1 = h := by
  induction q with
  | nil => simp [hasHook]
  | cons p rest ih =>
    obtain ⟨h2, ds⟩ := p
    simp [hasHook, Bool.or_eq_true, beq_iff_eq, ih]

theorem lookupQueue_eq_nil_of_not_hasHook (h : Hook) (q : List (Hook × List EventData))
    (hh : hasHook h q = false) : lookupQueue h q = [] := by
  induction q with
  | nil => rfl
  | cons p rest ih =>
    obtain ⟨h2, ds⟩ := p
    simp only [hasHook, Bool.or_eq_false_iff] at hh
    have h2h : ¬ h2 = h := by
      intro hc
      rw [hc] at hh
      simp at hh
    simp [lookupQueue, h2h, ih hh.2]

theorem lookupQueue_ne_nil (h : Hook) (q : List (Hook × List EventData))
    (WFq : ∀ p ∈ q, p.2 ≠ []) (hh : hasHook h q = true) :
    lookupQueue h q ≠ [] := by
  induction q with
  | nil => simp [hasHook] at hh
  | cons p rest ih =>
    obtain ⟨h2, ds⟩ := p
    by_cases h2h : h2 = h
    · have hl : lookupQueue h ((h2, ds) :: rest) = ds := by simp [lookupQueue, h2h]
      rw [hl]
      exact WFq (h2, ds) (List.mem_cons_self _ _)
    · have hh2 : hasHook h rest = true := by
        simp [hasHook, Bool.or_eq_true, beq_iff_eq, h2h] at hh
        exact hh
      have hr := ih (fun p hp => WFq p (List.mem_cons_of_mem _ hp)) hh2
      simpa [lookupQueue, h2h] using hr

theorem mem_hookKeysRaw (h : Hook) (sessions : List Session) :
    h ∈ hookKeysRaw sessions ↔ ∃ s ∈ sessions, hasHook h s.preCommit = true := by
  induction sessions with
  | nil => simp [hookKeysRaw]
  | cons s rest ih =>
    simp [hookKeysRaw, List.mem_append, ih, hasHook_iff, List.mem_map]

theorem groupByHook_keys (sessions : List Session) :
    (groupByHook sessions).map Prod.fst = (hookKeysRaw sessions).dedup := by
  unfold groupByHook
  rw [List.map_map]
  have hc : (Prod.fst ∘ fun h : Hook => (h, groupFor sessions h)) = id := rfl
  rw [hc, List.map_id]

theorem groupFor_complete (sessions : List Session) (h : Hook) (s : Session)
    (hs : s ∈ sessions) (hq : lookupQueue h s.preCommit ≠ []) :
    (s, lookupQueue h s.preCommit) ∈ groupFor sessions h := by
  induction sessions with
  | nil => cases hs
  | cons s2 rest ih =>
    rcases List.mem_cons.mp hs with hh | hh
    · subst hh
      cases hhas : hasHook h s.preCommit with
      | false => exact absurd (lookupQueue_eq_nil_of_not_hasHook h s.preCommit hhas) hq
      | true =>
        simp [groupFor, hhas]
    · cases hhas : hasHook h s2.preCommit with
      | false => simpa [groupFor, hhas] using ih hh
      | true =>
        simp only [groupFor, hhas, if_true]
        exact List.mem_cons_of_mem _ (ih hh)

theorem groupFor_sound (sessions : List Session) (h : Hook)
    (WF : ∀ s ∈ sessions, ∀ p ∈ s.preCommit, p.2 ≠ []) :
    ∀ q ∈ groupFor sessions h,
      q.1 ∈ sessions ∧ q.2 = lookupQueue h q.1.preCommit ∧ q.2 ≠ [] := by
  induction sessions with
  | nil => intro q hq; cases hq
  | cons s2 rest ih =>
    intro q hq
    have WFr : ∀ s ∈ rest, ∀ p ∈ s.preCommit, p.2 ≠ [] :=
      fun s hs => WF s (List.mem_cons_of_mem _ hs)
    cases hhas : hasHook h s2.preCommit with
    | false =>
      simp only [groupFor, hhas, Bool.false_eq_true, if_false] at hq
      obtain ⟨h1, h2, h3⟩ := ih WFr q hq
      exact ⟨List.mem_cons_of_mem _ h1, h2, h3⟩
    | true =>
      simp only [groupFor, hhas, if_true] at hq
      rcases List.mem_cons.mp hq with hh | hh
      · subst hh
        refine ⟨List.mem_cons_self _ _, rfl, ?_⟩
        exact lookupQueue_ne_nil h s2.preCommit (WF s2 (List.mem_cons_self _ _)) hhas
      · obtain ⟨h1, h2, h3⟩ := ih WFr q hh
        exact ⟨List.mem_cons_of_mem _ h1, h2, h3⟩

/-! ### Claim theorems -/

/-- Claim C1: batch atomicity. For every batch, either every hook's bulk
operation succeeds, the transaction commits, and the observable state is the
result of all hooks' operations, or `ProcessBatch` returns the error and the
observable state is exactly the initial one (rollback: no hook effect is
observable). -/
theorem ProcessBatch_atomicity {σ : Type}
    (apply : Hook → List (Session × List EventData) → σ → Except String σ)
    (sessions : List Session) (db : σ) :
    (∃ db2, applyHooks apply (groupByHook sessions) db = .ok db2 ∧
        ProcessBatch apply sessions db = (db2, none)) ∨
    (∃ e, applyHooks apply (groupByHook sessions) db = .error e ∧
        ProcessBatch apply sessions db = (db, some e)) := by
  unfold ProcessBatch
  cases hr : applyHooks apply (groupByHook sessions) db with
  | ok db2 => exact Or.inl ⟨db2, rfl, rfl⟩
  | error e => exact Or.inr ⟨e, rfl, rfl⟩

/-- Claim C2: grouping correctness. In a well-formed batch (queued sequences
are non-empty, as `AddPreCommitEvent` guarantees), a hook with at least one
queued event occurs exactly once in the grouping the committer iterates — so
its bulk `Apply` is invoked exactly once — and a hook with no queued event
does not occur; the single group for a hook carries every session that
queued events for it, each with its full ordered sequence, and nothing else. -/
theorem hook_invoked_exactly_once (sessions : List Session) (h : Hook)
    (WF : ∀ s ∈ sessions, ∀ p ∈ s.preCommit, p.2 ≠ []) :
    (((groupByHook sessions).map Prod.fst).count h =
        if ∃ s ∈ sessions, lookupQueue h s.preCommit ≠ [] then 1 else 0) ∧
    (∀ g, (h, g) ∈ groupByHook sessions → g = groupFor sessions h) ∧
    (∀ s ∈ sessions, lookupQueue h s.preCommit ≠ [] →
        (s, lookupQueue h s.preCommit) ∈ groupFor sessions h) ∧
    (∀ q ∈ groupFor sessions h,
        q.1 ∈ sessions ∧ q.2 = lookupQueue h q.1.preCommit ∧ q.2 ≠ []) := by
  refine ⟨?_, ?_, fun s hs hq => groupFor_complete sessions h s hs hq,
    groupFor_sound sessions h WF⟩
  · rw [groupByHook_keys, List.count_dedup]
    have hiff : (h ∈ hookKeysRaw sessions) ↔
        (∃ s ∈ sessions, lookupQueue h s.preCommit ≠ []) := by
      rw [mem_hookKeysRaw]
      constructor
      · rintro ⟨s, hs, hhas⟩
        exact ⟨s, hs, lookupQueue_ne_nil h s.preCommit (WF s hs) hhas⟩
      · rintro ⟨s, hs, hq⟩
        refine ⟨s, hs, ?_⟩
        cases hhas : hasHook h s.preCommit with
        | false => exact absurd (lookupQueue_eq_nil_of_not_hasHook h s.preCommit hhas) hq
        | true => rfl
    simp [hiff]
  · intro g hg
    unfold groupByHook at hg
    rcases List.mem_map.mp hg with ⟨h2, hh2, heq⟩
    injection heq with e1 e2
    subst e1
    exact e2.symm

/-- Claim C3: per-session, per-hook order preservation. A fresh session that
queues the events `evts` under hook `h` via `AddPreCommitEvent` ends with
exactly `evts`, in submission order, as the sequence under `h`; and the
grouping hands the hook's `Apply` exactly that pair for this session. -/
theorem addPreCommitEvent_preserves_order (s : Session) (evts : List EventData) (h : Hook)
    (hfresh : s.preCommit = []) (hne : evts ≠ []) :
    lookupQueue h (queueAll s (evts.map (fun d => (h, d)))).preCommit = evts ∧
    groupFor [queueAll s (evts.map (fun d => (h, d)))] h =
      [(queueAll s (evts.map (fun d => (h, d))), evts)] := by
  have hfil : ∀ l : List EventData,
      ((l.map (fun d => (h, d))).filter (fun p => p.1 == h)).map Prod.snd = l := by
    intro l
    induction l with
    | nil => rfl
    | cons d rest ih => simp [ih]
  have hmain : lookupQueue h (queueAll s (evts.map (fun d => (h, d)))).preCommit = evts := by
    rw [lookupQueue_queueAll, hfresh, hfil]
    rfl
  have hhas : hasHook h (queueAll s (evts.map (fun d => (h, d)))).preCommit = true := by
    cases hv : hasHook h (queueAll s (evts.map (fun d => (h, d)))).preCommit with
    | false =>
      have hz := lookupQueue_eq_nil_of_not_hasHook h _ hv
      rw [hmain] at hz
      exact absurd hz hne
    | true => rfl
  exact ⟨hmain, by simp [groupFor, hhas, hmain]⟩

/-- Claim C4: last-write-wins reduction. When every session's sequence ends
in a name-change event, `CommitContactNameChanges.Apply` produces, for each
session, exactly one update pairing the session's contact id with the `Name`
of the last event of that session's sequence. -/
theorem apply_last_write_wins (sessions : List (Session × List EventData))
    (hw : sessions.all (fun p => lastIsNameChange p.2) = true) :
    CommitContactNameChanges.Apply sessions =
      .ok [⟨"updating contact name", updateContactNameSQL,
            sessions.map (fun p => ⟨p.1.ContactID, lastName p.2⟩)⟩] := by
  unfold CommitContactNameChanges.Apply
  rw [buildNameUpdates_ok sessions hw]

/-- Claim C4 witness: with the two events `name A` then `name B` queued for
one session with contact id 42, the single update row carries `B`, not `A`,
and not both. -/
theorem apply_last_write_wins_witness :
    ([((⟨1, 42, "c-42", []⟩ : Session),
        [EventData.contactNameChanged ⟨"A"⟩, EventData.contactNameChanged ⟨"B"⟩])].all
        (fun p => lastIsNameChange p.2) = true) ∧
    CommitContactNameChanges.Apply
        [(⟨1, 42, "c-42", []⟩,
          [EventData.contactNameChanged ⟨"A"⟩, EventData.contactNameChanged ⟨"B"⟩])] =
      .ok [⟨"updating contact name", updateContactNameSQL, [⟨42, "B"⟩]⟩] :=
  ⟨by decide, apply_last_write_wins _ (by decide)⟩

/-- Claim C2 witness: a concrete two-session batch in which session 1 queues
for the name-change hook and a second hook, and session 2 queues for the
name-change hook only. -/
theorem hook_invoked_exactly_once_witness :
    (∀ s ∈ [(⟨1, 10, "c-10",
          [(Hook.commitContactNameChanges, [EventData.contactNameChanged ⟨"Alice"⟩]),
           (Hook.otherHook 0, [EventData.otherEvent "x"])]⟩ : Session),
        (⟨2, 11, "c-11",
          [(Hook.commitContactNameChanges, [EventData.contactNameChanged ⟨"Bob"⟩])]⟩ : Session)],
      ∀ p ∈ s.preCommit, p.2 ≠ []) ∧
    ((((groupByHook [(⟨1, 10, "c-10",
          [(Hook.commitContactNameChanges, [EventData.contactNameChanged ⟨"Alice"⟩]),
           (Hook.otherHook 0, [EventData.otherEvent "x"])]⟩ : Session),
        (⟨2, 11, "c-11",
          [(Hook.commitContactNameChanges, [EventData.contactNameChanged ⟨"Bob"⟩])]⟩ : Session)]).map
          Prod.fst).count Hook.commitContactNameChanges =
        if ∃ s ∈ [(⟨1, 10, "c-10",
          [(Hook.commitContactNameChanges, [EventData.contactNameChanged ⟨"Alice"⟩]),
           (Hook.otherHook 0, [EventData.otherEvent "x"])]⟩ : Session),
        (⟨2, 11, "c-11",
          [(Hook.commitContactNameChanges, [EventData.contactNameChanged ⟨"Bob"⟩])]⟩ : Session)],
          lookupQueue Hook.commitContactNameChanges s.preCommit ≠ [] then 1 else 0) ∧
      (∀ g, (Hook.commitContactNameChanges, g) ∈ groupByHook [(⟨1, 10, "c-10",
          [(Hook.commitContactNameChanges, [EventData.contactNameChanged ⟨"Alice"⟩]),
           (Hook.otherHook 0, [EventData.otherEvent "x"])]⟩ : Session),
        (⟨2, 11, "c-11",
          [(Hook.commitContactNameChanges, [EventData.contactNameChanged ⟨"Bob"⟩])]⟩ : Session)] →
        g = groupFor [(⟨1, 10, "c-10",
          [(Hook.commitContactNameChanges, [EventData.contactNameChanged ⟨"Alice"⟩]),
           (Hook.otherHook 0, [EventData.otherEvent "x"])]⟩ : Session),
        (⟨2, 11, "c-11",
          [(Hook.commitContactNameChanges, [EventData.contactNameChanged ⟨"Bob"⟩])]⟩ : Session)]
          Hook.commitContactNameChanges) ∧
      (∀ s ∈ [(⟨1, 10, "c-10",
          [(Hook.commitContactNameChanges, [EventData.contactNameChanged ⟨"Alice"⟩]),
           (Hook.otherHook 0, [EventData.otherEvent "x"])]⟩ : Session),
        (⟨2, 11, "c-11",
          [(Hook.commitContactNameChanges, [EventData.contactNameChanged ⟨"Bob"⟩])]⟩ : Session)],
        lookupQueue Hook.commitContactNameChanges s.preCommit ≠ [] →
        (s, lookupQueue Hook.commitContactNameChanges s.preCommit) ∈
          groupFor [(⟨1, 10, "c-10",
          [(Hook.commitContactNameChanges, [EventData.contactNameChanged ⟨"Alice"⟩]),
           (Hook.otherHook 0, [EventData.otherEvent "x"])]⟩ : Session),
        (⟨2, 11, "c-11",
          [(Hook.commitContactNameChanges, [EventData.contactNameChanged ⟨"Bob"⟩])]⟩ : Session)]
            Hook.commitContactNameChanges) ∧
      (∀ q ∈ groupFor [(⟨1, 10, "c-10",
          [(Hook.commitContactNameChanges, [EventData.contactNameChanged ⟨"Alice"⟩]),
           (Hook.otherHook 0, [EventData.otherEvent "x"])]⟩ : Session),
        (⟨2, 11, "c-11",
          [(Hook.commitContactNameChanges, [EventData.contactNameChanged ⟨"Bob"⟩])]⟩ : Session)]
          Hook.commitContactNameChanges,
        q.1 ∈ [(⟨1, 10, "c-10",
          [(Hook.commitContactNameChanges, [EventData.contactNameChanged ⟨"Alice"⟩]),
           (Hook.otherHook 0, [EventData.otherEvent "x"])]⟩ : Session),
        (⟨2, 11, "c-11",
          [(Hook.commitContactNameChanges, [EventData.contactNameChanged ⟨"Bob"⟩])]⟩ : Session)] ∧
          q.2 = lookupQueue Hook.commitContactNameChanges q.1.preCommit ∧ q.2 ≠ [])) :=
  ⟨by decide, hook_invoked_exactly_once _ Hook.commitContactNameChanges (by decide)⟩

/-- Claim C3 witness: a fresh session queues three name-change events under
the name-change hook; the queue and the group hold exactly those three, in
order. -/
theorem addPreCommitEvent_preserves_order_witness :
    ((⟨1, 2, "c-2", []⟩ : Session).preCommit = [] ∧
      ([EventData.contactNameChanged ⟨"A"⟩, EventData.contactNameChanged ⟨"B"⟩,
        EventData.contactNameChanged ⟨"C"⟩] : List EventData) ≠ []) ∧
    (lookupQueue Hook.commitContactNameChanges
        (queueAll ⟨1, 2, "c-2", []⟩
          (([EventData.contactNameChanged ⟨"A"⟩, EventData.contactNameChanged ⟨"B"⟩,
            EventData.contactNameChanged ⟨"C"⟩].map
              (fun d => (Hook.commitContactNameChanges, d))))).preCommit =
        [EventData.contactNameChanged ⟨"A"⟩, EventData.contactNameChanged ⟨"B"⟩,
          EventData.contactNameChanged ⟨"C"⟩] ∧
      groupFor [queueAll ⟨1, 2, "c-2", []⟩
          (([EventData.contactNameChanged ⟨"A"⟩, EventData.contactNameChanged ⟨"B"⟩,
            EventData.contactNameChanged ⟨"C"⟩].map
              (fun d => (Hook.commitContactNameChanges, d))))] Hook.commitContactNameChanges =
        [(queueAll ⟨1, 2, "c-2", []⟩
          (([EventData.contactNameChanged ⟨"A"⟩, EventData.contactNameChanged ⟨"B"⟩,
            EventData.contactNameChanged ⟨"C"⟩].map
              (fun d => (Hook.commitContactNameChanges, d)))),
          [EventData.contactNameChanged ⟨"A"⟩, EventData.contactNameChanged ⟨"B"⟩,
            EventData.contactNameChanged ⟨"C"⟩])]) :=
  ⟨⟨by decide, by decide⟩,
    addPreCommitEvent_preserves_order ⟨1, 2, "c-2", []⟩ _ Hook.commitContactNameChanges
      (by decide) (by decide)⟩

/-- Claim C5: single bulk statement. For every non-empty well-typed mapping,
`CommitContactNameChanges.Apply` issues exactly one `BulkSQL` call, carrying
`updateContactNameSQL` and one update row per session. -/
theorem apply_single_bulk_statement (sessions : List (Session × List EventData))
    (hne : sessions ≠ [])
    (hw : sessions.all (fun p => lastIsNameChange p.2) = true) :
    ∃ us : List nameUpdate,
      CommitContactNameChanges.Apply sessions =
        .ok [⟨"updating contact name", updateContactNameSQL, us⟩] ∧
      us.length = sessions.length := by
  refine ⟨sessions.map (fun p => ⟨p.1.ContactID, lastName p.2⟩), ?_, List.length_map _ _⟩
  unfold CommitContactNameChanges.Apply
  rw [buildNameUpdates_ok sessions hw]

/-- Claim C5 witness: two sessions contribute events and a single `BulkSQL`
call with two rows results. -/
theorem apply_single_bulk_statement_witness :
    (([((⟨1, 42, "c-42", []⟩ : Session), [EventData.contactNameChanged ⟨"Alice"⟩]),
       ((⟨2, 43, "c-43", []⟩ : Session), [EventData.contactNameChanged ⟨"Bob"⟩])] :
        List (Session × List EventData)) ≠ [] ∧
      [((⟨1, 42, "c-42", []⟩ : Session), [EventData.contactNameChanged ⟨"Alice"⟩]),
       ((⟨2, 43, "c-43", []⟩ : Session), [EventData.contactNameChanged ⟨"Bob"⟩])].all
        (fun p => lastIsNameChange p.2) = true) ∧
    (∃ us : List nameUpdate,
      CommitContactNameChanges.Apply
          [((⟨1, 42, "c-42", []⟩ : Session), [EventData.contactNameChanged ⟨"Alice"⟩]),
           ((⟨2, 43, "c-43", []⟩ : Session), [EventData.contactNameChanged ⟨"Bob"⟩])] =
        .ok [⟨"updating contact name", updateContactNameSQL, us⟩] ∧
      us.length = 2) :=
  ⟨⟨by decide, by decide⟩, apply_single_bulk_statement _ (by decide) (by decide)⟩

/-- Claim C6: the deferring handler leaves the transaction untouched. On a
`ContactNameChanged` event, `applyContactNameChanged` returns normally with
a `nil` error, performs no operation on the transaction or the cache pool,
and its only effect is appending the event under the
`commitContactNameChanges` hook of the session's pre-commit queue; every
other field of the session and every other hook's queue are unchanged. -/
theorem applyContactNameChanged_frame (tx rp : List String) (s : Session)
    (ev : ContactNameChangedEvent) :
    ∃ s2 : Session,
      applyContactNameChanged tx rp s (.contactNameChanged ev) = .ok (tx, rp, s2, none) ∧
      s2.ID = s.ID ∧ s2.ContactID = s.ContactID ∧ s2.ContactUUID = s.ContactUUID ∧
      (∀ h : Hook, lookupQueue h s2.preCommit =
        if h = Hook.commitContactNameChanges
        then lookupQueue h s.preCommit ++ [EventData.contactNameChanged ev]
        else lookupQueue h s.preCommit) := by
  refine ⟨s.AddPreCommitEvent Hook.commitContactNameChanges (.contactNameChanged ev),
    rfl, rfl, rfl, rfl, ?_⟩
  intro h
  have hli := lookupQueue_insertAppend h Hook.commitContactNameChanges
      (.contactNameChanged ev) s.preCommit
  by_cases hh : h = Hook.commitContactNameChanges
  · subst hh
    simp [Session.AddPreCommitEvent, hli]
  · have hne2 : ¬ Hook.commitContactNameChanges = h := fun hc => hh hc.symm
    simp [Session.AddPreCommitEvent, hli, hh, hne2]

/-- Claim C7: deterministic reduction. Two runs of
`CommitContactNameChanges.Apply` over the same sessions-to-events mapping in
two different map-iteration orders (a permutation) both succeed and produce
the same multiset — hence the same set — of (contact id, name) update
pairs. -/
theorem apply_deterministic_reduction (l l2 : List (Session × List EventData))
    (hp : l.Perm l2) (hw : l.all (fun p => lastIsNameChange p.2) = true) :
    ∃ u u2 : List nameUpdate,
      CommitContactNameChanges.Apply l =
        .ok [⟨"updating contact name", updateContactNameSQL, u⟩] ∧
      CommitContactNameChanges.Apply l2 =
        .ok [⟨"updating contact name", updateContactNameSQL, u2⟩] ∧
      u.Perm u2 ∧ (∀ x : nameUpdate, x ∈ u ↔ x ∈ u2) := by
  have hw2 : l2.all (fun p => lastIsNameChange p.2) = true := by
    rw [List.all_eq_true] at hw ⊢
    intro x hx
    exact hw x (hp.mem_iff.mpr hx)
  refine ⟨l.map (fun p => ⟨p.1.ContactID, lastName p.2⟩),
    l2.map (fun p => ⟨p.1.ContactID, lastName p.2⟩), ?_, ?_, ?_, ?_⟩
  · unfold CommitContactNameChanges.Apply
    rw [buildNameUpdates_ok l hw]
  · unfold CommitContactNameChanges.Apply
    rw [buildNameUpdates_ok l2 hw2]
  · exact hp.map _
  · intro x
    exact (hp.map (fun p => (⟨p.1.ContactID, lastName p.2⟩ : nameUpdate))).mem_iff

/-- Claim C7 witness: the same two-session mapping iterated in both orders
yields permuted update lists with the same members. -/
theorem apply_deterministic_reduction_witness :
    (([((⟨1, 42, "c-42", []⟩ : Session), [EventData.contactNameChanged ⟨"Alice"⟩]),
       ((⟨2, 43, "c-43", []⟩ : Session), [EventData.contactNameChanged ⟨"Bob"⟩])] :
        List (Session × List EventData)).Perm
      [((⟨2, 43, "c-43", []⟩ : Session), [EventData.contactNameChanged ⟨"Bob"⟩]),
       ((⟨1, 42, "c-42", []⟩ : Session), [EventData.contactNameChanged ⟨"Alice"⟩])]) ∧
    (∃ u u2 : List nameUpdate,
      CommitContactNameChanges.Apply
          [((⟨1, 42, "c-42", []⟩ : Session), [EventData.contactNameChanged ⟨"Alice"⟩]),
           ((⟨2, 43, "c-43", []⟩ : Session), [EventData.contactNameChanged ⟨"Bob"⟩])] =
        .ok [⟨"updating contact name", updateContactNameSQL, u⟩] ∧
      CommitContactNameChanges.Apply
          [((⟨2, 43, "c-43", []⟩ : Session), [EventData.contactNameChanged ⟨"Bob"⟩]),
           ((⟨1, 42, "c-42", []⟩ : Session), [EventData.contactNameChanged ⟨"Alice"⟩])] =
        .ok [⟨"updating contact name", updateContactNameSQL, u2⟩] ∧
      u.Perm u2 ∧ (∀ x : nameUpdate, x ∈ u ↔ x ∈ u2)) :=
  ⟨List.Perm.swap _ _ _,
    apply_deterministic_reduction _ _ (List.Perm.swap _ _ _) (by decide)⟩

/-- Claim C8: implicit non-emptiness precondition. `Apply` indexes
`e[len(e)-1]` with no guard: when every session's sequence is non-empty the
access is in bounds and no index-out-of-range panic occurs; when some
session's sequence is empty (all asserted last elements elsewhere being
well-typed, so no other panic preempts it) `Apply` panics with index out of
range rather than returning an error. -/
theorem apply_empty_sequence_panics (sessions : List (Session × List EventData)) :
    ((∀ p ∈ sessions, p.2 ≠ []) →
        CommitContactNameChanges.Apply sessions ≠ .error GoPanic.indexOutOfRange) ∧
    (sessions.all (fun p => lastTypedOK p.2) = true →
      ∀ s : Session, (s, ([] : List EventData)) ∈ sessions →
        CommitContactNameChanges.Apply sessions = .error GoPanic.indexOutOfRange) ∧
    (∀ s : Session, (s, ([] : List EventData)) ∈ sessions →
      ∀ r : List BulkSQLCall, CommitContactNameChanges.Apply sessions ≠ .ok r) := by
  refine ⟨?_, ?_, ?_⟩
  · intro hne hc
    exact buildNameUpdates_no_index_panic sessions hne ((apply_eq_error_iff sessions _).mp hc)
  · intro ht s hmem
    exact (apply_eq_error_iff sessions _).mpr (buildNameUpdates_index_panic sessions ht s hmem)
  · intro s hmem r hc
    have hex : exOk (buildNameUpdates sessions) = true := by
      unfold CommitContactNameChanges.Apply at hc
      cases hb : buildNameUpdates sessions with
      | error p => rw [hb] at hc; simp at hc
      | ok us => rfl
    rw [exOk_buildNameUpdates, List.all_eq_true] at hex
    have hfalse := hex (s, []) hmem
    simp [lastIsNameChange] at hfalse

/-- Claim C8 witness: a non-empty sequence yields no index panic; an empty
sequence makes `Apply` panic with index out of range. -/
theorem apply_empty_sequence_panics_witness :
    CommitContactNameChanges.Apply
        [((⟨1, 5, "c-5", []⟩ : Session), [EventData.contactNameChanged ⟨"A"⟩])] ≠
      .error GoPanic.indexOutOfRange ∧
    CommitContactNameChanges.Apply
        [((⟨2, 6, "c-6", []⟩ : Session), ([] : List EventData))] =
      .error GoPanic.indexOutOfRange :=
  ⟨(apply_empty_sequence_panics _).1 (by decide),
   (apply_empty_sequence_panics _).2.1 (by decide) ⟨2, 6, "c-6", []⟩ (by decide)⟩

/-- Claim C9 counterexample: the claim states that the two functions are
safe exactly when every datum queued under the hook has dynamic type
`*events.ContactNameChangedEvent`. That biconditional is false: `Apply`
asserts only the last element of each session's sequence, so a mapping
containing a wrongly-typed non-last datum returns normally even though not
every datum has the expected type. -/
theorem apply_unchecked_assertion_counterexample :
    ¬ (∀ sessions : List (Session × List EventData),
        exOk (CommitContactNameChanges.Apply sessions) = true ↔
          sessions.all (fun p => p.2.all isNameChangeDatum) = true) := by
  intro hcl
  have h1 := (hcl [(⟨1, 7, "c-7", []⟩,
      [EventData.otherEvent "msg", EventData.contactNameChanged ⟨"B"⟩])]).mp (by decide)
  revert h1
  decide

/-- Claim C9 as amended: `applyContactNameChanged` returns normally exactly
when the dispatched event has dynamic type `*events.ContactNameChangedEvent`,
and `CommitContactNameChanges.Apply` returns normally exactly when every
session's sequence is non-empty with a last element of that type; each
failing assertion is a panic, not a returned error. -/
theorem assertion_safety_last_element_only :
    (∀ (tx rp : List String) (s : Session) (e : EventData),
        exOk (applyContactNameChanged tx rp s e) = isNameChangeDatum e) ∧
    (∀ sessions : List (Session × List EventData),
        exOk (CommitContactNameChanges.Apply sessions) =
          sessions.all (fun p => lastIsNameChange p.2)) := by
  constructor
  · intro tx rp s e
    cases e <;> rfl
  · intro sessions
    rw [← exOk_buildNameUpdates]
    unfold CommitContactNameChanges.Apply
    cases hb : buildNameUpdates sessions <;> simp [exOk]

/-- Claim C10: effect bound of the bulk update. Under the relational
semantics of `updateContactNameSQL`, a row whose id matches no update pair
is entirely unchanged; every row keeps its id and all columns other than
`name` and `modified_on`; and a row matched by a pair gets that pair's name
with `modified_on` set to the database's current time. -/
theorem updateContactNameSQL_frame (updates : List nameUpdate) (now : Nat)
    (table : List ContactRow) :
    List.Forall₂ (rowSpec updates now) table (runUpdateContactNameSQL updates now table) := by
  unfold runUpdateContactNameSQL
  induction table with
  | nil => exact List.Forall₂.nil
  | cons c rest ih =>
    refine List.Forall₂.cons ?_ ih
    unfold rowSpec applyNameUpdateRow
    cases hf : updates.find? (fun u => u.ContactID == c.id) with
    | none => exact ⟨fun _ => rfl, rfl, rfl, fun r hr => absurd hr (by simp)⟩
    | some r =>
      refine ⟨?_, rfl, rfl, ?_⟩
      · intro hall
        have hmem := List.mem_of_find?_eq_some hf
        have hpr := List.find?_some hf
        exact absurd (beq_iff_eq.mp hpr) (hall r hmem)
      · intro r2 hr2
        injection hr2 with hr2e
        subst hr2e
        exact ⟨rfl, rfl⟩
